import Mathlib

/-!
Verification of the NSEC3 proof-verification engine and the zone-hierarchy /
signing builder that the DNS conformance tests of this repository are built
on.

The repository sources available here are the conformance tests
(name_server/rfc5155.rs and resolver/dnssec/scenarios/bogus.rs); the dns_test
support library they call into (NSEC3Records, the NSEC3 hash, the zone graph
builder, TrustAnchor) is specified by spec.md. Definitions below that embed
that library are modelled from the spec; definitions that embed the test
files themselves are translated from the source.
-/

set_option maxRecDepth 8000

/-- A hashed name in hash space: the byte sequence of its base32hex label.
Hash-space ordering is unsigned byte-wise comparison, which is the
lexicographic order on these byte lists. -/
abbrev Hash := List Nat

/-- Byte view of a base32hex hash label given as a string constant. -/
def hashBytes (s : String) : Hash := s.data.map Char.toNat

/-- Modelled from the spec: an NSEC3 record as seen by the proof index. The
owner is the hashed owner name and next_hashed_owner is the hash of the next
name of the ring in hash order. -/
structure NSEC3 where
  owner : Hash
  next_hashed_owner : Hash
deriving DecidableEq, Repr

/-- Modelled from the spec: the NSEC3 proof index, built once from a signed
zone's NSEC3 records and read-only thereafter. -/
structure NSEC3Records where
  records : List NSEC3
deriving DecidableEq, Repr

/-- Modelled from the spec: error kind raised when an index lookup fails. -/
inductive NSEC3Error where
  | ProofNotFound
deriving DecidableEq, Repr

/-- Modelled from the spec: find_match returns the record whose owner hash
equals the argument exactly, or none. -/
def NSEC3Records.find_match (idx : NSEC3Records) (h : Hash) : Option NSEC3 :=
  idx.records.find? (fun r => r.owner == h)

/-- Modelled from the spec: a record covers a hash when the hash falls in the
interval from the record's owner (exclusive) to its next hashed owner
(inclusive), under circular ring semantics: the record whose next hashed
owner wraps past the maximum back to the minimum covers both outer arcs. -/
def covers (r : NSEC3) (h : Hash) : Bool :=
  if r.owner < r.next_hashed_owner then decide (r.owner < h) && decide (h ≤ r.next_hashed_owner)
  else decide (r.owner < h) || decide (h ≤ r.next_hashed_owner)

/-- Modelled from the spec: find_cover returns the record that covers the
given hash under circular ring semantics, or none. -/
def NSEC3Records.find_cover (idx : NSEC3Records) (h : Hash) : Option NSEC3 :=
  idx.records.find? (fun r => covers r h)

/-- Modelled from the spec: closest_encloser_proof returns the pair (match
record for the first hash, cover record for the second hash) and fails with
ProofNotFound when either lookup fails. -/
def NSEC3Records.closest_encloser_proof (idx : NSEC3Records) (a b : Hash) :
    Except NSEC3Error (NSEC3 × NSEC3) :=
  match idx.find_match a, idx.find_cover b with
  | some m, some c => .ok (m, c)
  | _, _ => .error .ProofNotFound

/-- Modelled from the spec: the NSEC3 chain links each hashed owner to the
next hash of the (sorted) ring, the last one wrapping back to the first. -/
def chainFrom (first : Hash) : List Hash → List NSEC3
  | [] => []
  | [x] => [⟨x, first⟩]
  | x :: y :: rest => ⟨x, y⟩ :: chainFrom first (y :: rest)

/-- Modelled from the spec: the circular ring over a sorted list of hashed
owner names. -/
def ringOf : List Hash → List NSEC3
  | [] => []
  | a :: rest => chainFrom a (a :: rest)

/-- Hashes sorted into the ring order (unsigned byte-wise comparison). -/
def sortHashes (hs : List Hash) : List Hash := hs.insertionSort (· ≤ ·)

/-- Modelled from the spec: 32-bit truncation used by the external digest
primitive. -/
def m32 (x : Nat) : Nat := x % 4294967296

/-- Modelled from the spec: 32-bit left rotation (input below 2^32). -/
def rotl32 (n x : Nat) : Nat := m32 (x * 2 ^ n) + x / 2 ^ (32 - n)

/-- Modelled from the spec: SHA-1 round function (external primitive,
RFC 3174). -/
def sha1F (i b c d : Nat) : Nat :=
  if i < 20 then (b &&& c) ||| ((4294967295 - b) &&& d)
  else if i < 40 then b ^^^ c ^^^ d
  else if i < 60 then (b &&& c) ||| (b &&& d) ||| (c &&& d)
  else b ^^^ c ^^^ d

/-- Modelled from the spec: SHA-1 round constants. -/
def sha1K (i : Nat) : Nat :=
  if i < 20 then 1518500249
  else if i < 40 then 1859775393
  else if i < 60 then 2400959708
  else 3395469782

/-- Modelled from the spec: the 80 SHA-1 rounds over the word schedule. -/
def sha1Round : Nat → List Nat → Nat × Nat × Nat × Nat × Nat → Nat × Nat × Nat × Nat × Nat
  | _, [], st => st
  | i, w :: ws, (a, b, c, d, e) =>
    sha1Round (i + 1) ws
      (m32 (rotl32 5 a + sha1F i b c d + e + sha1K i + w), a, rotl32 30 b, c, d)

/-- Modelled from the spec: SHA-1 word-schedule extension; the accumulator
holds the words most recent first. -/
def extendWords : Nat → List Nat → List Nat
  | 0, acc => acc
  | n + 1, acc =>
    extendWords n
      (rotl32 1 ((acc.getD 2 0) ^^^ (acc.getD 7 0) ^^^ (acc.getD 13 0) ^^^ (acc.getD 15 0)) :: acc)

/-- Modelled from the spec: big-endian bytes to 32-bit words. -/
def bytesToWords : Nat → List Nat → List Nat
  | 0, _ => []
  | n + 1, b0 :: b1 :: b2 :: b3 :: rest =>
    (((b0 * 256 + b1) * 256 + b2) * 256 + b3) :: bytesToWords n rest
  | _, _ => []

/-- Modelled from the spec: split a padded message into 64-byte blocks. -/
def chunks64 : Nat → List Nat → List (List Nat)
  | 0, _ => []
  | _, [] => []
  | fuel + 1, bytes => bytes.take 64 :: chunks64 fuel (bytes.drop 64)

/-- Big-endian byte rendering of a value on a fixed number of bytes. -/
def beBytes : Nat → Nat → List Nat
  | 0, _ => []
  | n + 1, v => beBytes n (v / 256) ++ [v % 256]

/-- Modelled from the spec: one SHA-1 compression step. -/
def sha1Block (h : Nat × Nat × Nat × Nat × Nat) (block : List Nat) :
    Nat × Nat × Nat × Nat × Nat :=
  match h, sha1Round 0 ((extendWords 64 (bytesToWords 16 block).reverse).reverse) h with
  | (h0, h1, h2, h3, h4), (a, b, c, d, e) =>
    (m32 (h0 + a), m32 (h1 + b), m32 (h2 + c), m32 (h3 + d), m32 (h4 + e))

/-- Modelled from the spec: SHA-1 compression over all blocks. -/
def sha1Blocks : List (List Nat) → Nat × Nat × Nat × Nat × Nat → Nat × Nat × Nat × Nat × Nat
  | [], h => h
  | b :: bs, h => sha1Blocks bs (sha1Block h b)

/-- Modelled from the spec: the SHA-1 digest of a byte sequence (the external
cryptographic primitive invoked by the hashing component). -/
def sha1 (msg : List Nat) : List Nat :=
  match sha1Blocks
      (chunks64 (msg.length + 73)
        (msg ++ 128 :: List.replicate ((120 - ((msg.length + 1) % 64)) % 64) 0 ++
          beBytes 8 (msg.length * 8)))
      (1732584193, 4023233417, 2562383102, 271733878, 3285377520) with
  | (h0, h1, h2, h3, h4) =>
    beBytes 4 h0 ++ beBytes 4 h1 ++ beBytes 4 h2 ++ beBytes 4 h3 ++ beBytes 4 h4

/-- Modelled from the spec: canonical form lower-cases ASCII. -/
def toLowerByte (b : Nat) : Nat := if 65 ≤ b ∧ b ≤ 90 then b + 32 else b

/-- Labels of a dotted name; the trailing dot yields the empty root label. -/
def splitLabels : List Char → List (List Char)
  | [] => [[]]
  | c :: rest =>
    if c = '.' then [] :: splitLabels rest
    else
      match splitLabels rest with
      | [] => [[c]]
      | l :: ls => (c :: l) :: ls

/-- Modelled from the spec: canonicalize(name), the wire-format lower-cased
length-prefixed encoding used for ordering and hashing. -/
def wireName (name : String) : List Nat :=
  ((splitLabels name.data).map
    (fun l => l.length :: l.map (fun c => toLowerByte c.toNat))).flatten

/-- Base32hex digit expansion of a value, most significant digit first. -/
def b32Digits : Nat → Nat → List Nat
  | 0, _ => []
  | n + 1, v => b32Digits n (v / 32) ++ [v % 32]

/-- Base32hex alphabet (0-9 then A-V). -/
def b32Char (d : Nat) : Char := Char.ofNat (if d < 10 then 48 + d else 55 + d)

/-- Modelled from the spec: unpadded base32hex rendering of a digest. -/
def base32hex (bytes : List Nat) : String :=
  String.mk ((b32Digits (bytes.length * 8 / 5)
    (bytes.foldl (fun acc b => acc * 256 + b) 0)).map b32Char)

/-- Modelled from the spec: the iterated digest, h_i = digest(h_(i-1) || salt). -/
def iterateHash : Nat → List Nat → List Nat → List Nat
  | 0, _, hv => hv
  | n + 1, salt, hv => iterateHash n salt (sha1 (hv ++ salt))

/-- Modelled from the spec: hash(name, SHA-1, iterations, salt) as raw digest
bytes; h_0 = digest(canonical_wire(name) || salt). -/
def nsec3HashBytes (name : String) (iterations : Nat) (salt : List Nat) : List Nat :=
  iterateHash iterations salt (sha1 (wireName name ++ salt))

/-- Modelled from the spec: the base32hex-rendered HashedName of a name. -/
def nsec3HashHex (name : String) (iterations : Nat) (salt : List Nat) : String :=
  base32hex (nsec3HashBytes name iterations salt)

/-- Hash-space key of a name under the parameters the fixtures use (SHA-1,
one iteration, empty salt). -/
def hashKey (name : String) : Hash := hashBytes (nsec3HashHex name 1 [])

/-- The hashes of a zone's existing names. -/
def zoneHashes (names : List String) : List Hash := names.map hashKey

/-- Modelled from the spec: the NSEC3 chain a signed zone carries, one record
per existing name, ring-ordered in hash space. -/
def nsec3Chain (names : List String) : List NSEC3 := ringOf (sortHashes (zoneHashes names))

/-- The hash of the next existing name after the given owner hash in hash
order, wrapping from the maximum back to the minimum. -/
def nextExistingHash (names : List String) (o : Hash) : Hash :=
  match (sortHashes (zoneHashes names)).filter (fun x => decide (o < x)) with
  | [] => (sortHashes (zoneHashes names)).headD []
  | x :: _ => x

/-- Queried-zone name of the rfc5155 scenarios (source: rfc5155.rs). -/
def TLD_FQDN : String := "alice.com."

/-- Non-existent queried name of the scenarios (source: rfc5155.rs). -/
def NON_EXISTENT_FQDN : String := "charlie.alice.com."

/-- Wildcard name of the scenarios (source: rfc5155.rs). -/
def WILDCARD_FQDN : String := "*.alice.com."

/-- Name equal to the NSEC3 owner label of alice.com. (source: rfc5155.rs). -/
def NSEC3_OWNER_FQDN : String := "llkh4l6i60vhapp6vrm3dfr9ri8ak9i0.alice.com."

/-- Precomputed hash constant for alice.com. (source: rfc5155.rs). -/
def TLD_HASH : String := "LLKH4L6I60VHAPP6VRM3DFR9RI8AK9I0"

/-- Precomputed hash constant for charlie.alice.com. (source: rfc5155.rs). -/
def NON_EXISTENT_HASH : String := "99P1CCPQ2N64LIRMT2838O4HK0QFA51B"

/-- Precomputed hash constant for *.alice.com. (source: rfc5155.rs). -/
def WILDCARD_HASH : String := "19GBV5V1BO0P51H34JQDH1C8CIAA5RAQ"

/-- Precomputed hash constant for the NSEC3 owner name (source: rfc5155.rs). -/
def NSEC3_OWNER_HASH : String := "T5LJ8DV3O2C0BNVLRRUTQ2NKPQE3N385"

/-- Response status of a dig exchange (source: DigStatus usage in the tests). -/
inductive DigStatus where
  | NOERROR
  | NXDOMAIN
  | SERVFAIL
deriving DecidableEq, Repr

/-- Translated from the source: status.is_nxdomain(). -/
def DigStatus.is_nxdomain : DigStatus → Bool
  | .NXDOMAIN => true
  | _ => false

/-- Translated from the source: status.is_noerror(). -/
def DigStatus.is_noerror : DigStatus → Bool
  | .NOERROR => true
  | _ => false

/-- Translated from the source (rfc5155.rs find_records): each expected
record must occur in the observed response records. -/
def find_records (records : List NSEC3) (expected : List NSEC3) : Bool :=
  expected.all (fun e => records.any (fun rr => rr == e))

/-- Translated from the source (rfc5155.rs name_error_response): the checks
the name-error scenario performs on the status and response: NXDOMAIN, and
the closest-encloser pair plus the wildcard cover all occur in the
response. -/
def name_error_check (idx : NSEC3Records) (status : DigStatus) (response : List NSEC3) : Bool :=
  status.is_nxdomain &&
    match idx.closest_encloser_proof (hashBytes TLD_HASH) (hashBytes NON_EXISTENT_HASH) with
    | .ok (closest_encloser_rr, next_closer_name_rr) =>
      (match idx.find_cover (hashBytes WILDCARD_HASH) with
       | some wildcard_rr =>
         find_records response [closest_encloser_rr, next_closer_name_rr, wildcard_rr]
       | none => false)
    | .error _ => false

/-- Translated from the source (rfc5155.rs nsec3_owner_name): the checks the
NSEC3-owner-label scenario performs: NXDOMAIN, find_match succeeds on the
zone hash, and a cover for the queried name hash occurs in the response. -/
def nsec3_owner_check (idx : NSEC3Records) (status : DigStatus) (response : List NSEC3) : Bool :=
  status.is_nxdomain &&
    (idx.find_match (hashBytes TLD_HASH)).isSome &&
    match idx.find_cover (hashBytes NSEC3_OWNER_HASH) with
    | some cover => find_records response [cover]
    | none => false

/-- A concrete two-record ring whose first owner is the alice.com. hash. -/
def c5ring : List NSEC3 :=
  [⟨hashBytes TLD_HASH, hashBytes "ZZZZ"⟩, ⟨hashBytes "ZZZZ", hashBytes TLD_HASH⟩]

/-- A concrete four-record response: the proof records plus two extras. -/
def c5response : List NSEC3 :=
  [⟨hashBytes TLD_HASH, hashBytes "ZZZZ"⟩, ⟨hashBytes "ZZZZ", hashBytes TLD_HASH⟩,
   ⟨hashBytes "AAAA", hashBytes "BBBB"⟩, ⟨hashBytes "CCCC", hashBytes "DDDD"⟩]

/-- Modelled from the spec: DNSKEY record data. The low flags bit is the SEP
flag distinguishing key-signing keys. -/
structure DNSKEYRec where
  zone : String
  flags : Nat
  algorithm : Nat
  public_key : Nat
deriving DecidableEq, Repr

/-- Modelled from the spec: RRSIG record data (type covered and key tag). -/
structure RRSIGRec where
  type_covered : String
  key_tag : Nat
deriving DecidableEq, Repr

/-- Modelled from the spec: DS record wire fields (owner zone, 16-bit key
tag, algorithm, digest type, digest). -/
structure DSRec where
  zone : String
  key_tag : Nat
  algorithm : Nat
  digest_type : Nat
  digest : Nat
deriving DecidableEq, Repr

/-- Modelled from the spec: the tagged union of resource record kinds the
scenarios manipulate. -/
inductive Record where
  | A (zone : String) (addr : Nat)
  | NS (zone : String) (ns_name : String)
  | DNSKEY (k : DNSKEYRec)
  | DS (d : DSRec)
  | RRSIG (r : RRSIGRec)
deriving DecidableEq, Repr

/-- Type tag of a record, for signature bookkeeping. -/
def recordTypeTag : Record → String
  | .A _ _ => "A"
  | .NS _ _ => "NS"
  | .DNSKEY _ => "DNSKEY"
  | .DS _ => "DS"
  | .RRSIG _ => "RRSIG"

/-- Modelled from the spec: the signatures produced over a record collection
(one RRSIG per record set; the signing primitive itself is external). -/
def signRecords (rs : List Record) : List Record :=
  rs.map (fun r => Record.RRSIG ⟨recordTypeTag r, 0⟩)

/-- Modelled from the spec: a signed immutable snapshot of a zone. -/
structure SignedZone where
  zone : String
  records : List Record
  rrsigs : List Record
deriving DecidableEq, Repr

/-- Events of the per-zone build pipeline, tagged with the zone identity. -/
inductive BuildEvent where
  | assembledEv (zone : String)
  | hookEv (zone : String)
  | signedEv (zone : String)
deriving DecidableEq, Repr

/-- Zone identity an event belongs to. -/
def eventZone : BuildEvent → String
  | .assembledEv z => z
  | .hookEv z => z
  | .signedEv z => z

/-- Modelled from the spec: building one zone runs assembly, then hands the
assembled collection to the fault-injection hook, then signs exactly the
collection the hook returned. -/
def buildOne (hook : String → List Record → List Record) (z : String)
    (assembled : List Record) : SignedZone × List BuildEvent :=
  (⟨z, hook z assembled, signRecords (hook z assembled)⟩,
   [.assembledEv z, .hookEv z, .signedEv z])

/-- Modelled from the spec: the graph builder signs every zone of the
delegation tree, applying the fault-injection hook per zone. -/
def graphBuild (hook : String → List Record → List Record) :
    List (String × List Record) → List SignedZone × List BuildEvent
  | [] => ([], [])
  | (z, rs) :: rest =>
    ((buildOne hook z rs).1 :: (graphBuild hook rest).1,
     (buildOne hook z rs).2 ++ (graphBuild hook rest).2)

/-- Translated from the source (dnskey.is_key_signing_key()): the SEP flag
bit distinguishes the KSK. -/
def DNSKEYRec.is_key_signing_key (k : DNSKEYRec) : Bool := k.flags % 2 == 1

/-- Modelled from the spec: the key set of a zone, a KSK/ZSK pair. -/
structure ZoneKeys where
  ksk : DNSKEYRec
  zsk : DNSKEYRec
deriving DecidableEq, Repr

/-- Modelled from the spec: generate_keys(zone) produces a KSK (flags 257,
SEP set) and a ZSK (flags 256) for the zone. -/
def generate_keys (zone : String) (kskMaterial zskMaterial : Nat) : ZoneKeys :=
  ⟨⟨zone, 257, 8, kskMaterial⟩, ⟨zone, 256, 8, zskMaterial⟩⟩

/-- Modelled from the spec: an ordered set of public keys handed to the
validating resolver at start time. -/
structure TrustAnchor where
  keys : List DNSKEYRec
deriving DecidableEq, Repr

/-- Translated from the source: TrustAnchor::empty(). -/
def TrustAnchor.empty : TrustAnchor := ⟨[]⟩

/-- Translated from the source: trust_anchor.add(key) appends a key,
preserving order. -/
def TrustAnchor.add (ta : TrustAnchor) (k : DNSKEYRec) : TrustAnchor := ⟨ta.keys ++ [k]⟩

/-- Translated from the source (bogus.rs malformed_ds_fixture, lines
206-209): the trust anchor receives the root key-signing key and then the
root zone-signing key. -/
def malformed_ds_trust_anchor (rootKeys : ZoneKeys) : TrustAnchor :=
  (TrustAnchor.empty.add rootKeys.ksk).add rootKeys.zsk

/-- Translated from the source (bogus.rs bogus_zone_plus_trust_anchor_dnskey,
lines 286-288): the trust anchor receives only the root key-signing key. -/
def bogus_zone_trust_anchor (rootKeys : ZoneKeys) : TrustAnchor :=
  TrustAnchor.empty.add rootKeys.ksk

/-- Modelled from the spec: the 16-bit key tag computed from the referenced
DNSKEY record data. -/
def calculate_key_tag (k : DNSKEYRec) : Nat :=
  (k.flags + k.algorithm + k.public_key) % 65536

/-- Modelled from the spec: the DS record correctly derived from a child
zone's KSK, with matching key tag and algorithm. -/
def dsFromKey (k : DNSKEYRec) : DSRec :=
  ⟨k.zone, calculate_key_tag k, k.algorithm, 2, k.public_key⟩

/-- Modelled from the spec: a DS record validates only if its key tag and
algorithm equal those computed from the referenced DNSKEY. -/
def ds_validates (ds : DSRec) (k : DNSKEYRec) : Bool :=
  ds.key_tag == calculate_key_tag k && ds.algorithm == k.algorithm

/-- Translated from the source (bogus.rs ds_bad_tag): ds.key_tag is replaced
by its 16-bit bitwise complement. -/
def ds_bad_tag_mutation (ds : DSRec) : DSRec := { ds with key_tag := 65535 - ds.key_tag }

/-- Translated from the source (bogus.rs ds_bad_key_algo): ds.algorithm is
set to 7 after asserting it was 8. -/
def ds_bad_key_algo_mutation (ds : DSRec) : DSRec := { ds with algorithm := 7 }

/-- C1: closest_encloser_proof(a, b) succeeds and returns exactly the pair
(the record returned by find_match(a), the record returned by find_cover(b))
if and only if both lookups succeed independently; when either lookup fails
it fails with ProofNotFound. -/
theorem closest_encloser_proof_spec (idx : NSEC3Records) (a b : Hash) :
    (∀ m c, idx.closest_encloser_proof a b = .ok (m, c) ↔
      (idx.find_match a = some m ∧ idx.find_cover b = some c)) ∧
    (idx.closest_encloser_proof a b = .error .ProofNotFound ↔
      (idx.find_match a = none ∨ idx.find_cover b = none)) := by
  constructor
  · intro m c
    unfold NSEC3Records.closest_encloser_proof
    cases hm : idx.find_match a <;> cases hc : idx.find_cover b <;> simp_all
  · unfold NSEC3Records.closest_encloser_proof
    cases hm : idx.find_match a <;> cases hc : idx.find_cover b <;> simp_all

/-- Helper: on a strictly sorted non-empty owner segment whose head is at
least first, some record of the chain covers h, provided h is at most first
or beyond the segment head. -/
theorem chainFrom_cover_exists (first h : Hash) :
    ∀ (l : List Hash) (x : Hash), (x :: l).Sorted (· < ·) → first ≤ x →
      (h ≤ first ∨ x < h) → ∃ r ∈ chainFrom first (x :: l), covers r h = true := by
  intro l
  induction l with
  | nil =>
    intro x _ hfx hinv
    refine ⟨⟨x, first⟩, by simp [chainFrom], ?_⟩
    have hnot : ¬ ((⟨x, first⟩ : NSEC3).owner < (⟨x, first⟩ : NSEC3).next_hashed_owner) :=
      not_lt.mpr hfx
    simp only [covers, if_neg hnot, Bool.or_eq_true, decide_eq_true_eq]
    rcases hinv with h1 | h2
    · exact Or.inr h1
    · exact Or.inl h2
  | cons y rest ih =>
    intro x hs hfx hinv
    have hxy : x < y := (List.sorted_cons.mp hs).1 y (by simp)
    have hs' : (y :: rest).Sorted (· < ·) := (List.sorted_cons.mp hs).2
    rcases hinv with h1 | h2
    · obtain ⟨r, hr, hc⟩ := ih y hs' (le_trans hfx hxy.le) (Or.inl h1)
      exact ⟨r, by simp [chainFrom]; exact Or.inr hr, hc⟩
    · by_cases hy : h ≤ y
      · refine ⟨⟨x, y⟩, by simp [chainFrom], ?_⟩
        have hlt : ((⟨x, y⟩ : NSEC3).owner < (⟨x, y⟩ : NSEC3).next_hashed_owner) := hxy
        simp only [covers, if_pos hlt, Bool.and_eq_true, decide_eq_true_eq]
        exact ⟨h2, hy⟩
      · obtain ⟨r, hr, hc⟩ := ih y hs' (le_trans hfx hxy.le) (Or.inr (not_le.mp hy))
        exact ⟨r, by simp [chainFrom]; exact Or.inr hr, hc⟩

/-- Helper: any record of the chain that covers h forces h to lie below
first or beyond the segment head. -/
theorem chainFrom_cover_bound (first h : Hash) :
    ∀ (l : List Hash) (x : Hash), (x :: l).Sorted (· < ·) → first ≤ x →
      ∀ r ∈ chainFrom first (x :: l), covers r h = true → (h ≤ first ∨ x < h) := by
  intro l
  induction l with
  | nil =>
    intro x _ hfx r hr hc
    simp [chainFrom] at hr
    subst hr
    have hnot : ¬ ((⟨x, first⟩ : NSEC3).owner < (⟨x, first⟩ : NSEC3).next_hashed_owner) :=
      not_lt.mpr hfx
    simp only [covers, if_neg hnot, Bool.or_eq_true, decide_eq_true_eq] at hc
    exact hc.symm
  | cons y rest ih =>
    intro x hs hfx r hr hc
    have hxy : x < y := (List.sorted_cons.mp hs).1 y (by simp)
    have hs' : (y :: rest).Sorted (· < ·) := (List.sorted_cons.mp hs).2
    simp only [chainFrom, List.mem_cons] at hr
    rcases hr with rfl | hr
    · have hlt : ((⟨x, y⟩ : NSEC3).owner < (⟨x, y⟩ : NSEC3).next_hashed_owner) := hxy
      simp only [covers, if_pos hlt, Bool.and_eq_true, decide_eq_true_eq] at hc
      exact Or.inr hc.1
    · rcases ih y hs' (le_trans hfx hxy.le) r hr hc with h1 | h2
      · exact Or.inl h1
      · exact Or.inr (hxy.trans h2)

/-- Helper: at most one record of the chain covers h. -/
theorem chainFrom_cover_unique (first h : Hash) :
    ∀ (l : List Hash) (x : Hash), (x :: l).Sorted (· < ·) → first ≤ x →
      ∀ r ∈ chainFrom first (x :: l), ∀ s ∈ chainFrom first (x :: l),
        covers r h = true → covers s h = true → r = s := by
  intro l
  induction l with
  | nil =>
    intro x _ _ r hr s hsm _ _
    simp [chainFrom] at hr hsm
    rw [hr, hsm]
  | cons y rest ih =>
    intro x hs hfx r hr s hsm hcr hcs
    have hxy : x < y := (List.sorted_cons.mp hs).1 y (by simp)
    have hs' : (y :: rest).Sorted (· < ·) := (List.sorted_cons.mp hs).2
    have contra : ∀ t ∈ chainFrom first (y :: rest),
        covers ⟨x, y⟩ h = true → covers t h = true → False := by
      intro t ht hch hct
      have hbd := chainFrom_cover_bound first h rest y hs' (le_trans hfx hxy.le) t ht hct
      have hlt : ((⟨x, y⟩ : NSEC3).owner < (⟨x, y⟩ : NSEC3).next_hashed_owner) := hxy
      simp only [covers, if_pos hlt, Bool.and_eq_true, decide_eq_true_eq] at hch
      rcases hbd with h1 | h2
      · exact absurd hch.1 (not_lt.mpr (h1.trans hfx))
      · exact absurd h2 (not_lt.mpr hch.2)
    simp only [chainFrom, List.mem_cons] at hr hsm
    rcases hr with rfl | hr <;> rcases hsm with rfl | hsm
    · rfl
    · exact (contra s hsm hcr hcs).elim
    · exact (contra r hr hcs hcr).elim
    · exact ih y hs' (le_trans hfx hxy.le) r hr s hsm hcr hcs

/-- Helper: the wrap record from the last owner back to first belongs to the
chain. -/
theorem last_mem_chainFrom (first : Hash) :
    ∀ (l : List Hash) (x : Hash),
      (⟨(x :: l).getLast (List.cons_ne_nil x l), first⟩ : NSEC3) ∈
        chainFrom first (x :: l) := by
  intro l
  induction l with
  | nil => intro x; simp [chainFrom, List.getLast]
  | cons y rest ih =>
    intro x
    rw [List.getLast_cons (List.cons_ne_nil y rest)]
    simp only [chainFrom, List.mem_cons]
    exact Or.inr (ih y)

/-- Helper: the head of a strictly sorted list is at most its last element. -/
theorem sorted_head_le_getLast :
    ∀ (l : List Hash) (x : Hash), (x :: l).Sorted (· < ·) →
      x ≤ (x :: l).getLast (List.cons_ne_nil x l) := by
  intro l
  induction l with
  | nil => intro x _; simp [List.getLast]
  | cons y rest ih =>
    intro x hs
    have hxy : x < y := (List.sorted_cons.mp hs).1 y (by simp)
    have hs' : (y :: rest).Sorted (· < ·) := (List.sorted_cons.mp hs).2
    rw [List.getLast_cons (List.cons_ne_nil y rest)]
    exact le_trans hxy.le (ih y hs')

/-- C2: on a non-empty ring, find_cover(h) returns exactly one record: the
unique record covering h under circular ring semantics; when h is smaller
than every owner hash, that record is the one wrapping from the maximum
owner back to the minimum. find_cover never returns none on a non-empty
ring. -/
theorem find_cover_ring_total (owners : List Hash) (h : Hash)
    (hne : owners ≠ []) (hs : owners.Sorted (· < ·)) :
    ∃ r, NSEC3Records.find_cover ⟨ringOf owners⟩ h = some r ∧ covers r h = true ∧
      (∀ s ∈ ringOf owners, covers s h = true → s = r) ∧
      ((∀ o ∈ owners, h < o) → r = ⟨owners.getLast hne, owners.head hne⟩) := by
  obtain ⟨a, l, rfl⟩ := List.exists_cons_of_ne_nil hne
  obtain ⟨r0, hr0, hc0⟩ := chainFrom_cover_exists a h l a hs le_rfl (le_or_lt h a)
  have hsome : (NSEC3Records.find_cover ⟨ringOf (a :: l)⟩ h).isSome := by
    rw [NSEC3Records.find_cover, List.find?_isSome]
    exact ⟨r0, by simpa [ringOf] using hr0, hc0⟩
  obtain ⟨r, hr⟩ := Option.isSome_iff_exists.mp hsome
  have hr' : (ringOf (a :: l)).find? (fun s => covers s h) = some r := hr
  have hrc : covers r h = true := by
    have := List.find?_some hr'
    simpa using this
  have hrm : r ∈ chainFrom a (a :: l) := by
    simpa [ringOf] using List.mem_of_find?_eq_some hr'
  have huniq : ∀ s ∈ ringOf (a :: l), covers s h = true → s = r := by
    intro s hsm hcs
    exact chainFrom_cover_unique a h l a hs le_rfl s (by simpa [ringOf] using hsm) r hrm hcs hrc
  refine ⟨r, hr, hrc, huniq, ?_⟩
  intro hall
  have hha : h < a := hall a (by simp)
  have hle : a ≤ (a :: l).getLast (List.cons_ne_nil a l) := sorted_head_le_getLast l a hs
  have hwrapmem := last_mem_chainFrom a l a
  have hwrapcov : covers ⟨(a :: l).getLast (List.cons_ne_nil a l), a⟩ h = true := by
    have hnot : ¬ ((⟨(a :: l).getLast (List.cons_ne_nil a l), a⟩ : NSEC3).owner <
        (⟨(a :: l).getLast (List.cons_ne_nil a l), a⟩ : NSEC3).next_hashed_owner) :=
      not_lt.mpr hle
    simp only [covers, if_neg hnot, Bool.or_eq_true, decide_eq_true_eq]
    exact Or.inr hha.le
  have := huniq ⟨(a :: l).getLast (List.cons_ne_nil a l), a⟩ (by simpa [ringOf] using hwrapmem) hwrapcov
  exact this.symm

/-- Helper: a duplicate-free owner column makes the owner field injective on
the record list. -/
theorem owner_inj_of_nodup (rs : List NSEC3) (hnd : (rs.map NSEC3.owner).Nodup) :
    ∀ a ∈ rs, ∀ b ∈ rs, a.owner = b.owner → a = b := by
  have hp : rs.Pairwise (fun a b => a.owner ≠ b.owner) := by
    simpa [List.Nodup, List.pairwise_map] using hnd
  intro a ha b hb hab
  by_contra hne
  exact hp.forall (fun x y hxy => (hxy ∘ Eq.symm)) ha hb hne hab

/-- C4: find_match(h) returns a record iff h is the owner hash of exactly one
record of the index (the returned one); otherwise it returns none. Repeated
calls on the same index and hash agree (the lookup is a pure function). -/
theorem find_match_spec (rs : List NSEC3) (h : Hash)
    (hnd : (rs.map NSEC3.owner).Nodup) :
    (∀ r, NSEC3Records.find_match ⟨rs⟩ h = some r ↔
      (r ∈ rs ∧ r.owner = h ∧ ∀ s ∈ rs, s.owner = h → s = r)) ∧
    (NSEC3Records.find_match ⟨rs⟩ h = none ↔ ∀ r ∈ rs, r.owner ≠ h) ∧
    NSEC3Records.find_match ⟨rs⟩ h = NSEC3Records.find_match ⟨rs⟩ h := by
  have hinj := owner_inj_of_nodup rs hnd
  refine ⟨?_, ?_, rfl⟩
  · intro r
    constructor
    · intro hf
      have hf' : rs.find? (fun s => s.owner == h) = some r := hf
      have hmem : r ∈ rs := List.mem_of_find?_eq_some hf'
      have hown : r.owner = h := by
        have := List.find?_some hf'
        simpa [beq_iff_eq] using this
      refine ⟨hmem, hown, ?_⟩
      intro s hsm hso
      exact hinj s hsm r hmem (hso.trans hown.symm)
    · rintro ⟨hmem, hown, huniq⟩
      have hsome : (rs.find? (fun s => s.owner == h)).isSome := by
        rw [List.find?_isSome]
        exact ⟨r, hmem, by simpa [beq_iff_eq] using hown⟩
      obtain ⟨s, hsf⟩ := Option.isSome_iff_exists.mp hsome
      have hsm : s ∈ rs := List.mem_of_find?_eq_some hsf
      have hso : s.owner = h := by
        have := List.find?_some hsf
        simpa [beq_iff_eq] using this
      have : s = r := huniq s hsm hso
      subst this
      exact hsf
  · constructor
    · intro hf r hmem
      have hf' : rs.find? (fun s => s.owner == h) = none := hf
      have := List.find?_eq_none.mp hf' r hmem
      simpa [beq_iff_eq] using this
    · intro hall
      have : rs.find? (fun s => s.owner == h) = none := by
        rw [List.find?_eq_none]
        intro r hmem
        simpa [beq_iff_eq] using hall r hmem
      exact this

/-- Witness for C4 at a concrete one-record index. -/
theorem find_match_spec_witness :
    NSEC3Records.find_match ⟨[⟨[65], [66]⟩]⟩ [65] = some ⟨[65], [66]⟩ :=
  ((find_match_spec [⟨[65], [66]⟩] [65] (by decide)).1 _).mpr
    ⟨by decide, by decide, by decide⟩

/-- Witness for C2 at a concrete two-record ring and a hash below the
minimum owner, checking the wrap-around record is returned. -/
theorem find_cover_ring_total_witness :
    ∃ r, NSEC3Records.find_cover ⟨ringOf [[65], [66]]⟩ [48] = some r ∧
      covers r [48] = true ∧ r = ⟨[66], [65]⟩ := by
  obtain ⟨r, h1, h2, -, h4⟩ :=
    find_cover_ring_total [[65], [66]] [48] (by decide) (by decide)
  exact ⟨r, h1, h2, h4 (by decide)⟩

/-- Helper: every record of a chain over a strictly sorted segment has its
owner in the segment and its next pointer equal to the first strictly
greater segment element, the last record falling back to first. -/
theorem chainFrom_next_filter (first : Hash) :
    ∀ (l : List Hash) (x : Hash), (x :: l).Sorted (· < ·) →
      ∀ r ∈ chainFrom first (x :: l),
        r.owner ∈ x :: l ∧
        r.next_hashed_owner =
          (match (x :: l).filter (fun z => decide (r.owner < z)) with
           | [] => first
           | z :: _ => z) := by
  intro l
  induction l with
  | nil =>
    intro x _ r hr
    simp only [chainFrom, List.mem_singleton] at hr
    subst hr
    refine ⟨by simp, ?_⟩
    simp [List.filter, lt_irrefl]
  | cons y rest ih =>
    intro x hs r hr
    have hxy : x < y := (List.sorted_cons.mp hs).1 y (by simp)
    have hall : ∀ z ∈ y :: rest, x < z := (List.sorted_cons.mp hs).1
    have hs' : (y :: rest).Sorted (· < ·) := (List.sorted_cons.mp hs).2
    simp only [chainFrom, List.mem_cons] at hr
    rcases hr with rfl | hr
    · refine ⟨by simp, ?_⟩
      have h1 : (x :: y :: rest).filter (fun z => decide (x < z)) = y :: rest := by
        rw [List.filter_cons_of_neg (by simp [lt_irrefl])]
        exact List.filter_eq_self.mpr (fun z hz => by simpa using hall z hz)
      rw [h1]
    · obtain ⟨hmem, hnext⟩ := ih y hs' r hr
      have hyle : y ≤ r.owner := by
        rcases List.mem_cons.mp hmem with h0 | h0
        · exact h0.symm.le
        · exact ((List.sorted_cons.mp hs').1 r.owner h0).le
      have hnotx : ¬ (r.owner < x) := not_lt.mpr (le_trans hxy.le hyle)
      refine ⟨List.mem_cons_of_mem x hmem, ?_⟩
      rw [List.filter_cons_of_neg (by simpa using hnotx)]
      exact hnext

/-- Helper: the owners of a chain list the segment in order. -/
theorem chainFrom_map_owner (first : Hash) :
    ∀ (l : List Hash) (x : Hash), (chainFrom first (x :: l)).map NSEC3.owner = x :: l := by
  intro l
  induction l with
  | nil => intro x; simp [chainFrom]
  | cons y rest ih => intro x; simp [chainFrom, ih y]

/-- Helper: sorting the hashes is a permutation. -/
theorem sortHashes_perm (hs : List Hash) : List.Perm (sortHashes hs) hs :=
  List.perm_insertionSort _ hs

/-- Helper: with duplicate-free hashes the sorted hashes are strictly
sorted. -/
theorem sortHashes_sorted_lt (hs : List Hash) (hnd : hs.Nodup) :
    (sortHashes hs).Sorted (· < ·) := by
  have h1 : (sortHashes hs).Sorted (· ≤ ·) := List.sorted_insertionSort _ hs
  have h2 : (sortHashes hs).Nodup := ((sortHashes_perm hs).nodup_iff).mpr hnd
  exact h1.lt_of_le h2

/-- C3: the NSEC3 chain of a signed zone with n existing names has exactly n
records, its owners are exactly the sorted hashes of the existing names
(complete, sorted ring), and every record points to the hash of the next
existing name after its owner in hash order, the maximum wrapping back to
the minimum. -/
theorem nsec3Chain_ring_spec (names : List String)
    (hne : names ≠ []) (hnd : (zoneHashes names).Nodup) :
    (nsec3Chain names).length = names.length ∧
    (nsec3Chain names).map NSEC3.owner = sortHashes (zoneHashes names) ∧
    ∀ r ∈ nsec3Chain names, r.next_hashed_owner = nextExistingHash names r.owner := by
  have hlen : (sortHashes (zoneHashes names)).length = names.length := by
    rw [(sortHashes_perm (zoneHashes names)).length_eq]
    simp [zoneHashes]
  have hsne : sortHashes (zoneHashes names) ≠ [] := by
    intro h0
    rw [h0] at hlen
    exact hne (List.length_eq_zero.mp hlen.symm)
  obtain ⟨a, l, hal⟩ := List.exists_cons_of_ne_nil hsne
  have hsorted : (a :: l).Sorted (· < ·) := by
    rw [← hal]
    exact sortHashes_sorted_lt (zoneHashes names) hnd
  have hmap : (nsec3Chain names).map NSEC3.owner = sortHashes (zoneHashes names) := by
    rw [nsec3Chain, hal, ringOf, chainFrom_map_owner a l a]
  refine ⟨?_, hmap, ?_⟩
  · have := congrArg List.length hmap
    simpa [hlen] using this
  · intro r hr
    rw [nsec3Chain, hal] at hr
    obtain ⟨hmem, hnext⟩ := chainFrom_next_filter a l a hsorted r (by simpa [ringOf] using hr)
    rw [nextExistingHash, hal]
    simpa using hnext

/-- Witness for C3 on the one-name zone of the scenarios. -/
theorem nsec3Chain_ring_spec_witness :
    (nsec3Chain ["alice.com."]).length = 1 :=
  (nsec3Chain_ring_spec ["alice.com."] (by decide) (by decide)).1

/-- C10 counterexample: the embedded constant for alice.com. is not the hash
computed with zero iterations and empty salt. -/
theorem fixture_hash_zero_iterations_cex :
    nsec3HashHex TLD_FQDN 0 [] ≠ TLD_HASH := by decide

/-- C10 amended: the fixture constants are golden values for SHA-1 with one
iteration and empty salt, matching the comment in rfc5155.rs; each fixture
name hashes to its embedded constant under those parameters. -/
theorem fixture_hashes_golden :
    nsec3HashHex TLD_FQDN 1 [] = TLD_HASH ∧
    nsec3HashHex NON_EXISTENT_FQDN 1 [] = NON_EXISTENT_HASH ∧
    nsec3HashHex WILDCARD_FQDN 1 [] = WILDCARD_HASH ∧
    nsec3HashHex NSEC3_OWNER_FQDN 1 [] = NSEC3_OWNER_HASH :=
  ⟨by decide, by decide, by decide, by decide⟩

/-- Helper: success of closest_encloser_proof determines both lookups. -/
theorem cep_ok_elim (idx : NSEC3Records) (a b : Hash) (m c : NSEC3)
    (hcep : idx.closest_encloser_proof a b = .ok (m, c)) :
    idx.find_match a = some m ∧ idx.find_cover b = some c := by
  unfold NSEC3Records.closest_encloser_proof at hcep
  cases h1 : idx.find_match a <;> cases h2 : idx.find_cover b <;>
    rw [h1, h2] at hcep <;> simp_all

/-- Helper: a record returned by find_match has the looked-up owner hash. -/
theorem find_match_owner (idx : NSEC3Records) (h : Hash) (r : NSEC3)
    (hf : idx.find_match h = some r) : r.owner = h := by
  have hf' : idx.records.find? (fun s => s.owner == h) = some r := hf
  have := List.find?_some hf'
  simpa [beq_iff_eq] using this

/-- Helper: a record returned by find_cover covers the looked-up hash. -/
theorem find_cover_covers (idx : NSEC3Records) (h : Hash) (r : NSEC3)
    (hf : idx.find_cover h = some r) : covers r h = true := by
  have hf' : idx.records.find? (fun s => covers s h) = some r := hf
  have := List.find?_some hf'
  simpa using this

/-- Helper: find_records demands membership of every expected record. -/
theorem find_records_mem (resp expected : List NSEC3)
    (hfr : find_records resp expected = true) : ∀ e ∈ expected, e ∈ resp := by
  intro e he
  unfold find_records at hfr
  rw [List.all_eq_true] at hfr
  have := hfr e he
  rw [List.any_eq_true] at this
  obtain ⟨rr, hrr, heq⟩ := this
  rw [beq_iff_eq] at heq
  exact heq ▸ hrr

/-- Helper: only NXDOMAIN passes is_nxdomain. -/
theorem is_nxdomain_elim (st : DigStatus) (hst : st.is_nxdomain = true) :
    st = .NXDOMAIN := by
  cases st <;> simp_all [DigStatus.is_nxdomain]

/-- C5 counterexample: the name-error scenario acceptance check passes on a
response holding four NSEC3 records, so the scenario as implemented does not
demand exactly three NSEC3 records in the response. -/
theorem name_error_exactly_three_cex :
    name_error_check ⟨c5ring⟩ .NXDOMAIN c5response = true ∧ c5response.length ≠ 3 := by
  constructor
  · decide
  · decide

/-- C5 amended: in the name-error scenario the response must be a name error
(NXDOMAIN) and must contain the NSEC3 record matching the hash of
alice.com., the record covering the hash of charlie.alice.com., and the
record covering the hash of *.alice.com.; the total number of NSEC3 records
in the response is not constrained, and the three proof records need not be
distinct. -/
theorem name_error_response_spec (idx : NSEC3Records) (st : DigStatus)
    (resp : List NSEC3) (hc : name_error_check idx st resp = true) :
    st = .NXDOMAIN ∧
    ∃ ce ncn w,
      idx.find_match (hashBytes TLD_HASH) = some ce ∧
      idx.find_cover (hashBytes NON_EXISTENT_HASH) = some ncn ∧
      idx.find_cover (hashBytes WILDCARD_HASH) = some w ∧
      ce ∈ resp ∧ ncn ∈ resp ∧ w ∈ resp ∧
      ce.owner = hashBytes TLD_HASH ∧
      covers ncn (hashBytes NON_EXISTENT_HASH) = true ∧
      covers w (hashBytes WILDCARD_HASH) = true := by
  unfold name_error_check at hc
  rw [Bool.and_eq_true] at hc
  obtain ⟨hst, hrest⟩ := hc
  refine ⟨is_nxdomain_elim st hst, ?_⟩
  cases hcep : idx.closest_encloser_proof (hashBytes TLD_HASH) (hashBytes NON_EXISTENT_HASH) with
  | error e => rw [hcep] at hrest; simp at hrest
  | ok pr =>
    obtain ⟨ce, ncn⟩ := pr
    rw [hcep] at hrest
    cases hw : idx.find_cover (hashBytes WILDCARD_HASH) with
    | none => rw [hw] at hrest; simp at hrest
    | some w =>
      rw [hw] at hrest
      obtain ⟨hfm, hfc⟩ := cep_ok_elim idx _ _ ce ncn hcep
      have hmem := find_records_mem resp [ce, ncn, w] hrest
      exact ⟨ce, ncn, w, hfm, hfc, rfl,
        hmem ce (by simp), hmem ncn (by simp), hmem w (by simp),
        find_match_owner idx _ ce hfm,
        find_cover_covers idx _ ncn hfc,
        find_cover_covers idx _ w hw⟩

/-- Witness for C5 applying the amended theorem at the concrete scenario
index and response. -/
theorem name_error_response_spec_witness :
    ∃ ce ncn w,
      NSEC3Records.find_match ⟨c5ring⟩ (hashBytes TLD_HASH) = some ce ∧
      NSEC3Records.find_cover ⟨c5ring⟩ (hashBytes NON_EXISTENT_HASH) = some ncn ∧
      NSEC3Records.find_cover ⟨c5ring⟩ (hashBytes WILDCARD_HASH) = some w ∧
      ce ∈ c5response ∧ ncn ∈ c5response ∧ w ∈ c5response ∧
      ce.owner = hashBytes TLD_HASH ∧
      covers ncn (hashBytes NON_EXISTENT_HASH) = true ∧
      covers w (hashBytes WILDCARD_HASH) = true :=
  (name_error_response_spec ⟨c5ring⟩ .NXDOMAIN c5response (by decide)).2

/-- C9: whenever the NSEC3-owner-label scenario checks pass, the status is a
name error (the NSEC3 owner label was not treated as an answerable name),
the response contains a record covering the hash of the queried owner-label
name, and find_match still succeeds on the zone's own hash. -/
theorem nsec3_owner_name_spec (idx : NSEC3Records) (st : DigStatus)
    (resp : List NSEC3) (hc : nsec3_owner_check idx st resp = true) :
    st = .NXDOMAIN ∧
    (∃ m, idx.find_match (hashBytes TLD_HASH) = some m) ∧
    ∃ c, idx.find_cover (hashBytes NSEC3_OWNER_HASH) = some c ∧ c ∈ resp ∧
      covers c (hashBytes NSEC3_OWNER_HASH) = true := by
  unfold nsec3_owner_check at hc
  rw [Bool.and_eq_true, Bool.and_eq_true] at hc
  obtain ⟨⟨hst, hm⟩, hrest⟩ := hc
  refine ⟨is_nxdomain_elim st hst, Option.isSome_iff_exists.mp hm, ?_⟩
  cases hcov : idx.find_cover (hashBytes NSEC3_OWNER_HASH) with
  | none => rw [hcov] at hrest; simp at hrest
  | some c =>
    rw [hcov] at hrest
    have hmem := find_records_mem resp [c] hrest
    exact ⟨c, rfl, hmem c (by simp), find_cover_covers idx _ c hcov⟩

/-- Witness for C9 at a concrete index and response. -/
theorem nsec3_owner_name_spec_witness :
    ∃ c, NSEC3Records.find_cover ⟨c5ring⟩ (hashBytes NSEC3_OWNER_HASH) = some c ∧
      c ∈ [(⟨hashBytes TLD_HASH, hashBytes "ZZZZ"⟩ : NSEC3)] ∧
      covers c (hashBytes NSEC3_OWNER_HASH) = true :=
  (nsec3_owner_name_spec ⟨c5ring⟩ .NXDOMAIN
    [⟨hashBytes TLD_HASH, hashBytes "ZZZZ"⟩] (by decide)).2.2

/-- Helper: zones whose names differ from z contribute no z-events. -/
theorem graphBuild_events_other (hook : String → List Record → List Record) :
    ∀ (zones : List (String × List Record)) (z : String),
      (∀ p ∈ zones, p.1 ≠ z) →
      (graphBuild hook zones).2.filter (fun e => eventZone e == z) = [] := by
  intro zones
  induction zones with
  | nil => intro z _; simp [graphBuild]
  | cons p rest ih =>
    intro z hall
    obtain ⟨pz, prs⟩ := p
    have hne : pz ≠ z := hall (pz, prs) (by simp)
    have hrest := ih z (fun q hq => hall q (by simp [hq]))
    show List.filter (fun e => eventZone e == z)
      ((buildOne hook pz prs).2 ++ (graphBuild hook rest).2) = []
    rw [List.filter_append, hrest, List.append_nil]
    simp [buildOne, eventZone, hne]

/-- Helper: zones whose names differ from z contribute no signed zone named
z. -/
theorem graphBuild_zones_other (hook : String → List Record → List Record) :
    ∀ (zones : List (String × List Record)) (z : String),
      (∀ p ∈ zones, p.1 ≠ z) →
      ∀ sz ∈ (graphBuild hook zones).1, sz.zone ≠ z := by
  intro zones
  induction zones with
  | nil => intro z _ sz hsz; simp [graphBuild] at hsz
  | cons p rest ih =>
    intro z hall sz hsz
    obtain ⟨pz, prs⟩ := p
    simp only [graphBuild, List.mem_cons] at hsz
    rcases hsz with rfl | hsz
    · exact hall (pz, prs) (by simp)
    · exact ih z (fun q hq => hall q (by simp [hq])) sz hsz

/-- C6: for every zone of the graph, the fault-injection hook runs exactly
once, strictly after that zone's record-set assembly and strictly before its
signing; the collection the hook returns is exactly what gets signed and
served, and the signed output depends only on the hook's returned
collection, with no aliasing of the pre-hook collection. -/
theorem hook_once_between (hook : String → List Record → List Record)
    (zones : List (String × List Record)) (z : String) (rs : List Record)
    (hnd : (zones.map Prod.fst).Nodup) (hmem : (z, rs) ∈ zones) :
    (graphBuild hook zones).2.filter (fun e => eventZone e == z) =
      [.assembledEv z, .hookEv z, .signedEv z] ∧
    (∃ sz ∈ (graphBuild hook zones).1, sz.zone = z ∧ sz.records = hook z rs ∧
      sz.rrsigs = signRecords (hook z rs) ∧
      ∀ sz2 ∈ (graphBuild hook zones).1, sz2.zone = z → sz2 = sz) ∧
    (∀ rs2, hook z rs2 = hook z rs → (buildOne hook z rs2).1 = (buildOne hook z rs).1) := by
  induction zones with
  | nil => simp at hmem
  | cons p rest ih =>
    obtain ⟨pz, prs⟩ := p
    have hndrest : (rest.map Prod.fst).Nodup := (List.nodup_cons.mp hnd).2
    have hpznotin : pz ∉ rest.map Prod.fst := (List.nodup_cons.mp hnd).1
    rcases List.mem_cons.mp hmem with heq | hmem'
    · injection heq with hz hrs
      subst hz
      subst hrs
      have hother : ∀ q ∈ rest, q.1 ≠ z := by
        intro q hq hq1
        exact hpznotin (hq1 ▸ List.mem_map_of_mem Prod.fst hq)
      refine ⟨?_, ?_, ?_⟩
      · have hrest0 := graphBuild_events_other hook rest z hother
        show List.filter (fun e => eventZone e == z)
          ((buildOne hook z rs).2 ++ (graphBuild hook rest).2) =
          [.assembledEv z, .hookEv z, .signedEv z]
        rw [List.filter_append, hrest0, List.append_nil]
        simp [buildOne, eventZone]
      · refine ⟨(buildOne hook z rs).1, by simp [graphBuild], rfl, rfl, rfl, ?_⟩
        intro sz2 hsz2 hz2
        simp only [graphBuild, List.mem_cons] at hsz2
        rcases hsz2 with rfl | hsz2
        · rfl
        · exact absurd hz2 (graphBuild_zones_other hook rest z hother sz2 hsz2)
      · intro rs2 he
        simp [buildOne, he]
    · have hzin : z ∈ rest.map Prod.fst := by
        simpa using List.mem_map_of_mem Prod.fst hmem'
      have hpzne : pz ≠ z := fun h0 => hpznotin (h0 ▸ hzin)
      obtain ⟨hev, ⟨sz, hszmem, hszz, hszr, hszs, huniq⟩, hframe⟩ := ih hndrest hmem'
      refine ⟨?_, ⟨sz, by simp [graphBuild, List.mem_cons]; exact Or.inr hszmem,
        hszz, hszr, hszs, ?_⟩, hframe⟩
      · show List.filter (fun e => eventZone e == z)
          ((buildOne hook pz prs).2 ++ (graphBuild hook rest).2) =
          [.assembledEv z, .hookEv z, .signedEv z]
        rw [List.filter_append, hev]
        simp [buildOne, eventZone, hpzne]
      · intro sz2 hsz2 hz2
        simp only [graphBuild, List.mem_cons] at hsz2
        rcases hsz2 with rfl | hsz2
        · exact absurd hz2 (by simpa [buildOne] using hpzne)
        · exact huniq sz2 hsz2 hz2

/-- Witness for C6 on a concrete one-zone graph with the identity hook. -/
theorem hook_once_between_witness :
    (graphBuild (fun _ r => r) [("a", [])]).2.filter (fun e => eventZone e == "a") =
      [.assembledEv "a", .hookEv "a", .signedEv "a"] :=
  (hook_once_between (fun _ r => r) [("a", [])] "a" [] (by decide) (by simp)).1

/-- C7 counterexample: the trust anchor built by malformed_ds_fixture does
not consist exclusively of key-signing keys: it also holds the root
zone-signing key. -/
theorem trust_anchor_ksk_only_cex :
    ¬ (∀ k ∈ (malformed_ds_trust_anchor (generate_keys "." 1 2)).keys,
        k.is_key_signing_key = true) := by decide

/-- C7 amended: trust anchors handed to the validating resolver are ordered
sets of public keys of the root zone's key set; bogus_zone's anchor holds
only the root KSK, but malformed_ds_fixture's anchor holds the root KSK
followed by the root ZSK, so trust anchor members are not exclusively KSK
public keys. -/
theorem trust_anchor_members_spec (zone : String) (km zm : Nat) :
    (∀ k ∈ (bogus_zone_trust_anchor (generate_keys zone km zm)).keys,
      k.is_key_signing_key = true) ∧
    (malformed_ds_trust_anchor (generate_keys zone km zm)).keys =
      [(generate_keys zone km zm).ksk, (generate_keys zone km zm).zsk] ∧
    (generate_keys zone km zm).zsk.is_key_signing_key = false := by
  refine ⟨?_, rfl, by simp [generate_keys, DNSKEYRec.is_key_signing_key]⟩
  intro k hk
  simp only [bogus_zone_trust_anchor, TrustAnchor.add, TrustAnchor.empty, generate_keys,
    List.nil_append, List.mem_singleton] at hk
  subst hk
  simp [DNSKEYRec.is_key_signing_key]

/-- C8: a DS record validates exactly when its key tag and algorithm both
equal the values computed from the referenced DNSKEY; the correctly derived
DS validates, while the fault-injected mutations of the scenarios (key tag
complemented, algorithm 8 replaced by 7) never validate against the same
key. -/
theorem ds_validation_spec (k : DNSKEYRec) :
    (∀ ds : DSRec, ds_validates ds k = true ↔
      (ds.key_tag = calculate_key_tag k ∧ ds.algorithm = k.algorithm)) ∧
    ds_validates (dsFromKey k) k = true ∧
    ds_validates (ds_bad_tag_mutation (dsFromKey k)) k = false ∧
    (k.algorithm = 8 → ds_validates (ds_bad_key_algo_mutation (dsFromKey k)) k = false) := by
  refine ⟨?_, ?_, ?_, ?_⟩
  · intro ds
    simp [ds_validates, Bool.and_eq_true, beq_iff_eq]
  · simp [ds_validates, dsFromKey]
  · have ht : calculate_key_tag k < 65536 := Nat.mod_lt _ (by norm_num)
    simp only [ds_validates, ds_bad_tag_mutation, dsFromKey, Bool.and_eq_false_iff,
      beq_eq_false_iff_ne, ne_eq]
    left
    omega
  · intro h8
    simp [ds_validates, ds_bad_key_algo_mutation, dsFromKey, h8]

/-- Witness for C8 at a concrete KSK with algorithm 8. -/
theorem ds_validation_spec_witness :
    ds_validates (ds_bad_key_algo_mutation (dsFromKey ⟨".", 257, 8, 5⟩)) ⟨".", 257, 8, 5⟩ = false :=
  (ds_validation_spec ⟨".", 257, 8, 5⟩).2.2.2 (by decide)
